import Mathlib

/-!
Shallow embedding of the weekly sales forecasting pipeline
(data_processing.py, feature_engineering.py, predict.py, config.py).

Dates are modelled as integers counting days since 1970-01-01, exactly as the
underlying datetime columns do at midnight resolution; 1970-01-01 was a
Thursday, hence Mondays are the days d with d % 7 = 4.  Dataframes are lists
of row structures, in frame order.  Money and quantity columns are rationals
(the engine uses floats; every arithmetic operation the pipeline performs on
them is exact field arithmetic, which the rationals reproduce).  The trained
regressor, the float expm1 applied to its output and the float sqrt inside
the rolling standard deviation are opaque to this core and are passed in as
abstract functions.
-/

/-! ### Calendar arithmetic (dt.month, dt.week, dt.truncate) -/

/-- Civil (year, month, day) from a day count, via the standard
Gregorian era decomposition.  All day counts used by the pipeline are
positive, where integer division and the euclidean division used by
Lean agree with floor division. -/
def toCivil (d : ℤ) : ℤ × ℤ × ℤ :=
  let z := d + 719468
  let era := z / 146097
  let doe := z % 146097
  let yoe := (doe - doe / 1460 + doe / 36524 - doe / 146096) / 365
  let y := yoe + era * 400
  let doy := doe - (365 * yoe + yoe / 4 - yoe / 100)
  let mp := (5 * doy + 2) / 153
  let day := doy - (153 * mp + 2) / 5 + 1
  let m := if mp < 10 then mp + 3 else mp - 9
  (if m ≤ 2 then y + 1 else y, m, day)

/-- Day count of a civil date, inverse of toCivil. -/
def fromCivil (y m day : ℤ) : ℤ :=
  let y1 := if m ≤ 2 then y - 1 else y
  let era := y1 / 400
  let yoe := y1 - era * 400
  let mp := if m ≤ 2 then m + 9 else m - 3
  let doy := (153 * mp + 2) / 5 + day - 1
  let doe := yoe * 365 + yoe / 4 - yoe / 100 + doy
  era * 146097 + doe - 719468

/-- dt.month. -/
def dtMonth (d : ℤ) : ℤ := (toCivil d).2.1

/-- dt.week: the ISO week number, computed as the one-based index of the
seven-day block containing the Thursday of the week of d, counted from
January 1 of the year of that Thursday. -/
def dtWeek (d : ℤ) : ℤ :=
  let thu := d - (d - 4) % 7 + 3
  (thu - fromCivil (toCivil thu).1 1 1) / 7 + 1

/-- dt.truncate to one week: the Monday of the week of d. -/
def truncateWeek (d : ℤ) : ℤ := d - (d - 4) % 7

/-! ### config.py constants -/

/-- FERIADOS_2022: 2022-04-21, 2022-09-07, 2022-10-12, 2022-11-02,
2022-11-15, as day counts. -/
def feriados2022 : List ℤ := [19103, 19242, 19277, 19298, 19311]

/-! ### data_processing.py -/

/-- A joined raw record as seen by clean_and_aggregate: the five columns it
selects, each nullable, plus a stand-in for the enrichment columns brought in
by the left joins (categoria represents any of them). -/
structure RawRow where
  transaction_date : Option ℤ
  internal_store_id : Option ℤ
  internal_product_id : Option ℤ
  quantity : Option ℚ
  net_value : Option ℚ
  categoria : Option ℤ
deriving DecidableEq

/-- A row of df_essencial after the select and the null handling. -/
structure EssRow where
  data : ℤ
  pdv : ℤ
  produto : ℤ
  quantidade : ℚ
  net_value : ℚ
deriving DecidableEq

/-- The select of the five essential columns followed by drop_nulls: a row
survives exactly when all five selected fields are present. -/
def selectEssential (df : List RawRow) : List EssRow :=
  df.filterMap (fun r =>
    match r.transaction_date, r.internal_store_id, r.internal_product_id,
        r.quantity, r.net_value with
    | some t, some s, some p, some q, some nv => some ⟨t, s, p, q, nv⟩
    | _, _, _, _, _ => none)

/-- A weekly aggregated row. -/
structure WeeklyRow where
  data : ℤ
  pdv : ℤ
  produto : ℤ
  quantidade_semanal : ℚ
  net_value_semanal : ℚ
deriving DecidableEq

/-- The distinct group keys (truncated week, pdv, produto) of df_essencial.
The engine does not fix an order for group_by results; dedup order is one
admissible order, and nothing downstream depends on it. -/
def weekKeys (df : List EssRow) : List (ℤ × ℤ × ℤ) :=
  (df.map (fun r => (truncateWeek r.data, r.pdv, r.produto))).dedup

/-- The weekly group_by with sum aggregations of quantidade and net_value. -/
def aggregateWeekly (df : List EssRow) : List WeeklyRow :=
  (weekKeys df).map (fun k =>
    let grp := df.filter (fun r =>
      truncateWeek r.data == k.1 && r.pdv == k.2.1 && r.produto == k.2.2)
    ⟨k.1, k.2.1, k.2.2, (grp.map (·.quantidade)).sum, (grp.map (·.net_value)).sum⟩)

/-- data_pico: 2022-09-05, the anomalous week. -/
def dataPico : ℤ := 19240

/-- data_anterior: one week earlier, 2022-08-29. -/
def dataAnterior : ℤ := dataPico - 7

/-- Ordering used by the final sort("data") of clean_and_aggregate. -/
def wLe (a b : WeeklyRow) : Prop := a.data ≤ b.data

instance : DecidableRel wLe := fun a b => by unfold wLe; exact inferInstance

/-- The outlier treatment: drop every row dated data_pico, relabel a copy of
every row dated data_anterior to data_pico, and sort the result by data. -/
def corrigirOutlier (df : List WeeklyRow) : List WeeklyRow :=
  let corrigidos := (df.filter (fun r => r.data == dataAnterior)).map
    (fun r => { r with data := dataPico })
  let semPico := df.filter (fun r => r.data != dataPico)
  List.insertionSort wLe (semPico ++ corrigidos)

/-- clean_and_aggregate: select and drop incomplete records, aggregate to the
weekly level, correct the September 2022 outlier week. -/
def clean_and_aggregate (df : List RawRow) : List WeeklyRow :=
  corrigirOutlier (aggregateWeekly (selectEssential df))

/-! ### feature_engineering.py -/

/-- preco_medio_semanal: net value divided by quantity, the denominator
floored at 1 when the quantity is not positive. -/
def precoMedio (r : WeeklyRow) : ℚ :=
  r.net_value_semanal /
    (if 0 < r.quantidade_semanal then r.quantidade_semanal else 1)

/-- Rows of the same (pdv, produto) group as x. -/
def sameKeyW (x : WeeklyRow) : WeeklyRow → Bool :=
  fun r => r.pdv == x.pdv && r.produto == x.produto

/-- The preco_lag_1_semana column before mean imputation, row by row: for
each row, the average price of the previous row of the same group, walking
the frame in order with pre the rows already passed. -/
def precoLagColAux : List WeeklyRow → List WeeklyRow → List (Option ℚ)
  | _, [] => []
  | pre, x :: rest =>
      ((pre.filter (sameKeyW x)).getLast?).map precoMedio
        :: precoLagColAux (pre ++ [x]) rest

def precoLagCol (df : List WeeklyRow) : List (Option ℚ) := precoLagColAux [] df

/-- The dataset-wide mean of the non-null entries of the lagged price column,
used by fill_null(strategy="mean").  When the column has no non-null entry
the engine leaves the nulls in place; every row carrying such a null also
carries a null lag_1_semana and is dropped by the final drop_nulls, so the
degenerate value returned here is never observable. -/
def precoLagMean (df : List WeeklyRow) : ℚ :=
  let vals := (precoLagCol df).filterMap id
  vals.sum / (vals.length : ℚ)

/-- contem_feriado: the literal lambda of create_features.  For each offset i
in 0..6 and each configured holiday f it tests whether the whole-day
difference between week start plus i and f is smaller than one in absolute
value. -/
def contemFeriado (d : ℤ) : Bool :=
  (List.range 7).any (fun i => feriados2022.any (fun f => |d + (i : ℤ) - f| < 1))

/-- A fully populated modelling row, as emitted by create_features after its
drop_nulls. -/
structure FeatRow where
  data : ℤ
  pdv : ℤ
  produto : ℤ
  quantidade_semanal : ℚ
  net_value_semanal : ℚ
  preco_medio_semanal : ℚ
  preco_lag_1_semana : ℚ
  semana_do_ano : ℤ
  mes : ℤ
  lag_1_semana : ℚ
  lag_2_semanas : ℚ
  lag_4_semanas : ℚ
  media_movel_4_semanas : ℚ
  contem_feriado : Bool
deriving DecidableEq

/-- The feature computation for one row x given the rows pre that precede it
in the frame.  Lags shift within the (pdv, produto) group; the rolling mean
acts on the shifted series with window 4 and the default minimum of four
valid values, so it resolves exactly when the group holds at least four
earlier rows.  Returns none when the drop_nulls of create_features would
drop the row. -/
def mkFeatRow (m : ℚ) (pre : List WeeklyRow) (x : WeeklyRow) : Option FeatRow :=
  let before := pre.filter (sameKeyW x)
  let lag1 := (before.reverse.get? 0).map (·.quantidade_semanal)
  let lag2 := (before.reverse.get? 1).map (·.quantidade_semanal)
  let lag4 := (before.reverse.get? 3).map (·.quantidade_semanal)
  let mm := if 4 ≤ before.length then
      some (((before.reverse.take 4).map (·.quantidade_semanal)).sum / 4)
    else none
  match lag1, lag2, lag4, mm with
  | some l1, some l2, some l4, some mv =>
      some { data := x.data, pdv := x.pdv, produto := x.produto,
             quantidade_semanal := x.quantidade_semanal,
             net_value_semanal := x.net_value_semanal,
             preco_medio_semanal := precoMedio x,
             preco_lag_1_semana := ((before.getLast?).map precoMedio).getD m,
             semana_do_ano := dtWeek x.data, mes := dtMonth x.data,
             lag_1_semana := l1, lag_2_semanas := l2, lag_4_semanas := l4,
             media_movel_4_semanas := mv,
             contem_feriado := contemFeriado x.data }
  | _, _, _, _ => none

/-- Walk over the frame, tracking the passed prefix. -/
def createFeaturesAux (m : ℚ) : List WeeklyRow → List WeeklyRow → List FeatRow
  | _, [] => []
  | pre, x :: rest =>
      match mkFeatRow m pre x with
      | some fr => fr :: createFeaturesAux m (pre ++ [x]) rest
      | none => createFeaturesAux m (pre ++ [x]) rest

/-- create_features: price feature with lagged mean imputation, calendar and
lag and rolling features per group, holiday flag, final drop_nulls. -/
def create_features (df : List WeeklyRow) : List FeatRow :=
  createFeaturesAux (precoLagMean df) [] df

/-! ### predict.py -/

/-- A row of the working series df_futuro_com_historia.  Only the columns
the forecast loop reads are tracked: the key, the quantity and the lagged
price; every other carried column is overwritten or ignored by the loop. -/
structure SRow where
  data : ℤ
  pdv : ℤ
  produto : ℤ
  quantidade_semanal : Option ℚ
  preco_lag_1_semana : Option ℚ
deriving DecidableEq

/-- A historical modelling row entering the working series. -/
def toSRow (r : FeatRow) : SRow :=
  ⟨r.data, r.pdv, r.produto, some r.quantidade_semanal, some r.preco_lag_1_semana⟩

/-- 2022-11-28, the strict lower bound of the seeded recent history. -/
def cutoffData : ℤ := 19324

/-- The five Mondays of January 2023: 2023-01-02 through 2023-01-30. -/
def semanasJan2023 : List ℤ := [19359, 19366, 19373, 19380, 19387]

/-- The cross join of the selected pairs with the horizon weeks, all data
columns null. -/
def mkSkeleton (pairs : List (ℤ × ℤ)) : List SRow :=
  pairs.flatMap (fun p => semanasJan2023.map (fun w => ⟨w, p.1, p.2, none, none⟩))

/-- The sort("data", "pdv", "produto") ordering of the working series. -/
def rowLe (a b : SRow) : Prop :=
  a.data < b.data ∨ (a.data = b.data ∧
    (a.pdv < b.pdv ∨ (a.pdv = b.pdv ∧ a.produto ≤ b.produto)))

instance : DecidableRel rowLe := fun a b => by unfold rowLe; exact inferInstance

def sortRows (df : List SRow) : List SRow := List.insertionSort rowLe df

/-- fill_null(strategy="forward") on preco_lag_1_semana: a single pass over
the whole frame in frame order, with no per-group scoping, carrying the most
recent non-null value seen so far. -/
def fillForwardAux (last : Option ℚ) : List SRow → List SRow
  | [] => []
  | r :: rest =>
      match r.preco_lag_1_semana with
      | some v => r :: fillForwardAux (some v) rest
      | none => { r with preco_lag_1_semana := last } :: fillForwardAux last rest

def fillForward (df : List SRow) : List SRow := fillForwardAux none df

/-- Rows of the same (pdv, produto) group as x. -/
def sameKeyS (x : SRow) : SRow → Bool :=
  fun r => r.pdv == x.pdv && r.produto == x.produto

/-- The window the rolling aggregations act on for a row whose group holds
the rows before (in frame order): shift(1) then a window of size 4 with the
default minimum of four valid values.  It resolves exactly when at least
four group rows precede and the latest four all carry a quantity. -/
def rollWindowOf (before : List SRow) : Option (List ℚ) :=
  let w := (before.reverse.take 4).filterMap (·.quantidade_semanal)
  if 4 ≤ before.length ∧ w.length = 4 then some w else none

def meanQ (v : List ℚ) : ℚ := v.sum / (v.length : ℚ)

/-- Sample variance (ddof = 1), the square of rolling_std. -/
def sampleVarQ (v : List ℚ) : ℚ :=
  (v.map (fun q => (q - meanQ v) ^ 2)).sum / ((v.length : ℚ) - 1)

def minQ : List ℚ → ℚ
  | [] => 0
  | a :: t => t.foldl min a

def maxQ : List ℚ → ℚ
  | [] => 0
  | a :: t => t.foldl max a

/-- A row of df_para_prever: key columns plus every feature column the loop
materialises.  quantidade_semanal is also carried by the engine and zero
filled, but nothing reads it, so it is omitted. -/
structure FeatureRow where
  data : ℤ
  pdv : ℤ
  produto : ℤ
  semana_do_ano : ℤ
  mes : ℤ
  lag_1_semana : ℚ
  lag_2_semanas : ℚ
  lag_4_semanas : ℚ
  media_movel_4_semanas : ℚ
  desvio_padrao_movel_4_semanas : ℚ
  min_movel_4_semanas : ℚ
  max_movel_4_semanas : ℚ
  contem_feriado : Bool
  preco_lag_1_semana : ℚ
deriving DecidableEq

/-- The in-loop feature computation for one row x of the working series,
given the preceding rows pre; sq is the float square root used by
rolling_std.  The trailing fill_null(0) of the loop is applied per field.
contem_feriado is the literal constant False of the loop. -/
def featOf (sq : ℚ → ℚ) (pre : List SRow) (x : SRow) : FeatureRow :=
  let before := pre.filter (sameKeyS x)
  let lag : ℕ → Option ℚ := fun k =>
    (before.reverse.get? (k - 1)).bind (·.quantidade_semanal)
  { data := x.data, pdv := x.pdv, produto := x.produto,
    semana_do_ano := dtWeek x.data, mes := dtMonth x.data,
    lag_1_semana := (lag 1).getD 0,
    lag_2_semanas := (lag 2).getD 0,
    lag_4_semanas := (lag 4).getD 0,
    media_movel_4_semanas := ((rollWindowOf before).map meanQ).getD 0,
    desvio_padrao_movel_4_semanas :=
      ((rollWindowOf before).map (fun v => sq (sampleVarQ v))).getD 0,
    min_movel_4_semanas := ((rollWindowOf before).map minQ).getD 0,
    max_movel_4_semanas := ((rollWindowOf before).map maxQ).getD 0,
    contem_feriado := false,
    preco_lag_1_semana := x.preco_lag_1_semana.getD 0 }

/-- Feature rows of the current horizon week w: the with_columns over the
whole working series followed by the filter to data = w, walking the frame
with pre the passed prefix. -/
def loopFeaturesAux (sq : ℚ → ℚ) (w : ℤ) : List SRow → List SRow → List FeatureRow
  | _, [] => []
  | pre, x :: rest =>
      if x.data = w then featOf sq pre x :: loopFeaturesAux sq w (pre ++ [x]) rest
      else loopFeaturesAux sq w (pre ++ [x]) rest

def loopFeatures (sq : ℚ → ℚ) (df : List SRow) (w : ℤ) : List FeatureRow :=
  loopFeaturesAux sq w [] df

/-- The eight config.FEATURES columns handed to the regressor, in order:
semana_do_ano, mes, the three lags, the rolling mean, the holiday flag, the
lagged price.  The rolling std, min and max are computed by the loop but are
not part of the feature list. -/
structure XRow where
  semana_do_ano : ℤ
  mes : ℤ
  lag_1_semana : ℚ
  lag_2_semanas : ℚ
  lag_4_semanas : ℚ
  media_movel_4_semanas : ℚ
  contem_feriado : Bool
  preco_lag_1_semana : ℚ
deriving DecidableEq

def selectFeatures (fr : FeatureRow) : XRow :=
  ⟨fr.semana_do_ano, fr.mes, fr.lag_1_semana, fr.lag_2_semanas,
   fr.lag_4_semanas, fr.media_movel_4_semanas, fr.contem_feriado,
   fr.preco_lag_1_semana⟩

/-- np.round: round half to even, as a function on the exact value. -/
def roundHalfEven (q : ℚ) : ℤ :=
  let n := ⌊q⌋
  let fr := q - (n : ℚ)
  if fr < 1 / 2 then n
  else if 1 / 2 < fr then n + 1
  else if n % 2 = 0 then n else n + 1

/-- A row of df_resultado_semana. -/
structure ResultRow where
  data : ℤ
  pdv : ℤ
  produto : ℤ
  quantidade : ℤ
deriving DecidableEq

/-- Predict the current week: regressor output per row, inverse transform
em (np.expm1 for the log1p trained model), np.round, int cast, and the
clamp of negatives to zero. -/
def predStep (model : XRow → ℚ) (em : ℚ → ℚ) (feats : List FeatureRow) :
    List ResultRow :=
  feats.map (fun fr =>
    ⟨fr.data, fr.pdv, fr.produto,
     max 0 (roundHalfEven (em (model (selectFeatures fr))))⟩)

/-- DataFrame.update keyed on (data, pdv, produto): rows with a matching
result row get its quantity; every other row is untouched.  Row count and
keys never change. -/
def updateSeries (df : List SRow) (res : List ResultRow) : List SRow :=
  df.map (fun r =>
    match res.find? (fun u => u.data == r.data && u.pdv == r.pdv &&
        u.produto == r.produto) with
    | some u => { r with quantidade_semanal := some (u.quantidade : ℚ) }
    | none => r)

/-- One horizon step: forward fill the lagged price over the whole frame,
recompute the features, predict the current week, fold the predictions back
into the working series. -/
def runStep (model : XRow → ℚ) (em sq : ℚ → ℚ) (df : List SRow) (w : ℤ) :
    List SRow × List ResultRow :=
  let dff := fillForward df
  let res := predStep model em (loopFeatures sq dff w)
  (updateSeries dff res, res)

/-- The horizon loop, in the listed week order; returns the final working
series and the concatenated per-week results. -/
def runLoop (model : XRow → ℚ) (em sq : ℚ → ℚ) :
    List ℤ → List SRow → List SRow × List ResultRow
  | [], df => (df, [])
  | w :: ws, df =>
      let step := runStep model em sq df w
      let rest := runLoop model em sq ws step.1
      (rest.1, step.2 ++ rest.2)

/-- A row of the final submission frame. -/
structure SubRow where
  semana : ℤ
  pdv : ℤ
  produto : ℤ
  quantidade : ℤ
deriving DecidableEq

/-- generate_predictions: seed the working series with the history strictly
after 2022-11-28, append the skeleton of every selected pair for every
January week, sort by (data, pdv, produto), run the recursive loop over the
five weeks, and format the result with the week-of-year label. -/
def generate_predictions (model : XRow → ℚ) (em sq : ℚ → ℚ)
    (df_modelagem : List FeatRow) (pairs : List (ℤ × ℤ)) : List SubRow :=
  let hist := (df_modelagem.filter (fun r => cutoffData < r.data)).map toSRow
  let df0 := sortRows (hist ++ mkSkeleton pairs)
  let res := (runLoop model em sq semanasJan2023 df0).2
  res.map (fun r => ⟨dtWeek r.data, r.pdv, r.produto, r.quantidade⟩)

/-! ### Concrete frames used by counterexamples and witnesses -/

/-- One historical modelling row for the pair (1, 1), dated 2022-12-05, with
average price 10 carried in the lagged price column. -/
def dfmC1 : List FeatRow :=
  [⟨19331, 1, 1, 7, 70, 10, 10, 49, 12, 1, 1, 1, 1, false⟩]

/-- The working series entering the first horizon step for dfmC1 with the
selected pairs (1, 1) and (2, 2): the seed filter, the skeleton and the
sort of generate_predictions. -/
def serieC1 : List SRow :=
  sortRows ((dfmC1.filter (fun r => cutoffData < r.data)).map toSRow ++
    mkSkeleton [(1, 1), (2, 2)])

/-- A single-pair weekly series with six weekly rows whose sixth week
2022-10-24 follows a one-week gap (2022-10-17 is absent); quantities are
1..6 and every weekly price is 10. -/
def dfC2 : List WeeklyRow :=
  [⟨19240, 1, 1, 1, 10⟩, ⟨19247, 1, 1, 2, 20⟩, ⟨19254, 1, 1, 3, 30⟩,
   ⟨19261, 1, 1, 4, 40⟩, ⟨19268, 1, 1, 5, 50⟩, ⟨19282, 1, 1, 6, 60⟩]

/-- A single-pair working series whose last row sits at 2022-10-24 after a
gap; the four rows that precede it in the group are the weeks of
2022-09-05 .. 2022-09-26. -/
def dfC5 : List SRow :=
  [⟨19240, 1, 1, some 1, some 10⟩, ⟨19247, 1, 1, some 2, some 10⟩,
   ⟨19254, 1, 1, some 3, some 10⟩, ⟨19261, 1, 1, some 4, some 10⟩,
   ⟨19282, 1, 1, none, some 10⟩]

/-- dfC5 with only the quantity of the 2022-09-05 row changed from 1 to 9.
The two frames agree on every row dated within the four weeks strictly
before 2022-10-24. -/
def dfC5b : List SRow :=
  [⟨19240, 1, 1, some 9, some 10⟩, ⟨19247, 1, 1, some 2, some 10⟩,
   ⟨19254, 1, 1, some 3, some 10⟩, ⟨19261, 1, 1, some 4, some 10⟩,
   ⟨19282, 1, 1, none, some 10⟩]

/-! ### Key projections and orderings used to state the invariants -/

/-- Within-group chronology for working-series frames: whenever an earlier
frame row shares the entity pair of a later one, it bears a strictly
smaller date.  This is what the sort of the working series establishes on
frames with unique (data, pdv, produto) keys. -/
def sameKeyLtS (a b : SRow) : Prop :=
  a.pdv = b.pdv → a.produto = b.produto → a.data < b.data

instance : DecidableRel sameKeyLtS := fun a b => by
  unfold sameKeyLtS; exact inferInstance

/-- Within-group chronology for weekly frames. -/
def sameKeyLtW (a b : WeeklyRow) : Prop :=
  a.pdv = b.pdv → a.produto = b.produto → a.data < b.data

instance : DecidableRel sameKeyLtW := fun a b => by
  unfold sameKeyLtW; exact inferInstance

/-- The (data, pdv, produto) keys of a weekly frame. -/
def wkeys (df : List WeeklyRow) : List (ℤ × ℤ × ℤ) :=
  df.map (fun r => (r.data, r.pdv, r.produto))

/-- The (data, pdv, produto) key of a working-series row. -/
def skey (r : SRow) : ℤ × ℤ × ℤ := (r.data, r.pdv, r.produto)

/-- The (data, pdv, produto) key of a result row. -/
def rkey (r : ResultRow) : ℤ × ℤ × ℤ := (r.data, r.pdv, r.produto)

/-! ### Supporting lemmas -/

theorem fillForwardAux_getElem (df : List SRow) :
    ∀ (last : Option ℚ) (i : ℕ),
    (fillForwardAux last df)[i]? = (df[i]?).map (fun r =>
      { r with preco_lag_1_semana :=
          ((df.take (i + 1)).foldl
            (fun acc s => match s.preco_lag_1_semana with
              | some v => some v
              | none => acc) last) }) := by
  induction df with
  | nil => intro last i; simp [fillForwardAux]
  | cons r rest ih =>
      intro last i
      obtain ⟨d, pv, pr, qs, pl⟩ := r
      cases pl with
      | some v =>
          cases i with
          | zero => simp [fillForwardAux]
          | succ n => simpa [fillForwardAux] using ih (some v) n
      | none =>
          cases i with
          | zero => simp [fillForwardAux]
          | succ n => simpa [fillForwardAux] using ih last n

theorem mem_createFeaturesAux {m : ℚ} :
    ∀ {df pre : List WeeklyRow} {fr : FeatRow},
    fr ∈ createFeaturesAux m pre df →
    ∃ pre2 x suf, df = pre2 ++ x :: suf ∧ mkFeatRow m (pre ++ pre2) x = some fr := by
  intro df
  induction df with
  | nil => intro pre fr h; simp [createFeaturesAux] at h
  | cons x rest ih =>
      intro pre fr h
      rw [createFeaturesAux] at h
      cases hmk : mkFeatRow m pre x with
      | some fr2 =>
          rw [hmk] at h
          rcases List.mem_cons.mp h with h1 | h2
          · exact ⟨[], x, rest, by simp, by simpa [h1] using hmk⟩
          · obtain ⟨p2, x2, s2, hrest, hm2⟩ := ih h2
            exact ⟨x :: p2, x2, s2, by simp [hrest],
              by simpa [List.append_assoc] using hm2⟩
      | none =>
          rw [hmk] at h
          obtain ⟨p2, x2, s2, hrest, hm2⟩ := ih h
          exact ⟨x :: p2, x2, s2, by simp [hrest],
            by simpa [List.append_assoc] using hm2⟩

/-! ### Claims -/

/-- Claim C1, counterexample.  In the first horizon step for the concrete
frames dfmC1 with selected pairs (1, 1) and (2, 2), no row of pair (2, 2)
carries a known lagged price, yet after the forward fill of the loop the
(2, 2) row of the first horizon week carries the value 10 that belongs to
pair (1, 1): the fill crosses entity pairs, refuting the per-pair scoping
stated by the claim. -/
theorem c1_counterexample :
    ((fillForward serieC1).filter
        (fun r => r.pdv == 2 && r.data == 19359)).map (·.preco_lag_1_semana) =
      [some 10] ∧
    ∀ r ∈ serieC1, r.pdv = 2 → r.preco_lag_1_semana = none := by decide

/-- Claim C1, amended: in each horizon step, each null of the lagged-price
column is filled with the most recent non-null lagged-price value occurring
at or before that position in the (data, pdv, produto)-sorted working
series, regardless of which entity pair that value belongs to; a null with
no earlier non-null value anywhere in the frame stays null. -/
theorem c1_amended (df : List SRow) (i : ℕ) :
    (fillForward df)[i]? = (df[i]?).map (fun r =>
      { r with preco_lag_1_semana :=
          ((df.take (i + 1)).foldl
            (fun acc s => match s.preco_lag_1_semana with
              | some v => some v
              | none => acc) none) }) :=
  fillForwardAux_getElem df none i

/-- Claim C3, counterexample.  A joined row with timestamp, location, item
and quantity all present but a null net_value is discarded by the cleaning
step, although the claim says a row missing only other fields is kept. -/
theorem c3_counterexample :
    selectEssential [⟨some 19240, some 1, some 1, some 2, none, some 5⟩] = [] := rfl

/-- Claim C3, amended: a row is discarded during cleaning if and only if at
least one of the five selected fields timestamp, location_id, item_id,
quantity, net_value is null; nulls in enrichment columns alone never drop a
row. -/
theorem c3_amended (r : RawRow) :
    selectEssential [r] = [] ↔
      (r.transaction_date = none ∨ r.internal_store_id = none ∨
       r.internal_product_id = none ∨ r.quantity = none ∨ r.net_value = none) := by
  obtain ⟨t, s, p, q, nv, c⟩ := r
  cases t <;> cases s <;> cases p <;> cases q <;> cases nv <;>
    simp [selectEssential]

/-- Claim C9: the recursive forecast is deterministic.  The forecasting
function is a pure function of its inputs: identical input tables,
identical selected pairs and an identical regressor (with identical float
expm1 and sqrt) give identical outputs. -/
theorem c9_determinism (m1 m2 : XRow → ℚ) (e1 e2 s1 s2 : ℚ → ℚ)
    (d1 d2 : List FeatRow) (p1 p2 : List (ℤ × ℤ))
    (hm : m1 = m2) (he : e1 = e2) (hs : s1 = s2) (hd : d1 = d2) (hp : p1 = p2) :
    generate_predictions m1 e1 s1 d1 p1 = generate_predictions m2 e2 s2 d2 p2 := by
  subst hm; subst he; subst hs; subst hd; subst hp; rfl

theorem c9_witness :
    generate_predictions (fun _ => 0) id id [] [(1, 1)] =
      generate_predictions (fun _ => 0) id id [] [(1, 1)] :=
  c9_determinism _ _ _ _ _ _ _ _ _ _ rfl rfl rfl rfl rfl

/-- Claim C10: in every horizon step, every feature row built by the
forecast loop carries contem_feriado = false, whatever the configured
holiday list says, so no forecast week is ever flagged as holding a
holiday. -/
theorem c10_holiday_false : ∀ (sq : ℚ → ℚ) (w : ℤ) (pre df : List SRow),
    ∀ fr ∈ loopFeaturesAux sq w pre df, fr.contem_feriado = false := by
  intro sq w pre df
  induction df generalizing pre with
  | nil => intro fr h; simp [loopFeaturesAux] at h
  | cons x rest ih =>
      intro fr h
      simp only [loopFeaturesAux] at h
      split at h
      · rcases List.mem_cons.mp h with h1 | h2
        · subst h1; rfl
        · exact ih _ fr h2
      · exact ih _ fr h

theorem c10_witness :
    (featOf id [] ⟨19359, 1, 1, none, none⟩).contem_feriado = false :=
  c10_holiday_false id 19359 [] [⟨19359, 1, 1, none, none⟩]
    (featOf id [] ⟨19359, 1, 1, none, none⟩) (by simp [loopFeaturesAux])

/-- Claim C4: on weekly rows, whose week start is the Monday of its week
(all dates produced by the weekly truncation satisfy d % 7 = 4), the holiday
flag is true exactly when some day of the 7-day span starting at week start
lies within one day of a configured holiday; and every row emitted by
create_features carries the flag of its own week start.  The code tests a
whole-day distance strictly below one; on Monday-anchored spans and this
holiday list the two readings coincide. -/
theorem c4_holiday_flag :
    (∀ d : ℤ, d % 7 = 4 →
      (contemFeriado d = true ↔
        ∃ i : ℤ, 0 ≤ i ∧ i < 7 ∧ ∃ f ∈ feriados2022, |d + i - f| ≤ 1)) ∧
    (∀ (df : List WeeklyRow) (fr : FeatRow), fr ∈ create_features df →
      fr.contem_feriado = contemFeriado fr.data) := by
  constructor
  · intro d hd
    constructor
    · intro h
      simp only [contemFeriado, List.any_eq_true, List.mem_range,
        decide_eq_true_eq] at h
      obtain ⟨i, hi, f, hf, habs⟩ := h
      exact ⟨(i : ℤ), Int.natCast_nonneg i, by exact_mod_cast hi, f, hf,
        le_of_lt habs⟩
    · rintro ⟨i, hi0, hi7, f, hf, habs⟩
      rw [abs_le] at habs
      have hfd : 0 ≤ f - d ∧ f - d ≤ 6 := by
        fin_cases hf <;> omega
      simp only [contemFeriado, List.any_eq_true, List.mem_range,
        decide_eq_true_eq]
      refine ⟨(f - d).toNat, by omega, f, hf, ?_⟩
      have hcast : ((f - d).toNat : ℤ) = f - d := Int.toNat_of_nonneg hfd.1
      rw [hcast]
      simp
  · intro df fr h
    obtain ⟨p2, x, s, hdf, hmk⟩ := mem_createFeaturesAux h
    simp only [mkFeatRow] at hmk
    split at hmk
    · cases hmk
      rfl
    · cases hmk

theorem c4_witness :
    ((19240 : ℤ) % 7 = 4) ∧
    (contemFeriado 19240 = true ↔
      ∃ i : ℤ, 0 ≤ i ∧ i < 7 ∧ ∃ f ∈ feriados2022, |19240 + i - f| ≤ 1) :=
  ⟨by decide, c4_holiday_flag.1 19240 (by decide)⟩

/-- Claim C2, counterexample.  On the static series dfC2 the week
2022-10-17 does not exist for the pair (1, 1), yet the row of the following
week 2022-10-24 is not dropped by create_features: it appears in the output
with lag_1_semana equal to 5, the quantity of the most recent existing week
2022-10-10, not the missing calendar week before it. -/
theorem c2_counterexample :
    ((create_features dfC2).map (fun fr => (fr.data, fr.lag_1_semana)) =
      [(19268, 4), (19282, 5)]) ∧
    (∀ r ∈ dfC2, r.data ≠ 19275) := by decide

/-- Claim C5, counterexample.  In the forecast loop, at the row of week
2022-10-24 of dfC5 the rolling window holds the quantities of the four
preceding group rows, which reach back to 2022-09-05, a week outside the
four calendar weeks strictly before 2022-10-24.  Changing only that
out-of-window quantity from 1 to 9 (dfC5b) changes the rolling minimum from
1 to 2, although the two frames agree on every row dated within the four
weeks strictly before 2022-10-24 — so the rolling statistics are not
functions of those four weeks alone, refuting the claimed window. -/
theorem c5_counterexample :
    ((loopFeatures id dfC5 19282).map (·.min_movel_4_semanas) = [1]) ∧
    ((loopFeatures id dfC5b 19282).map (·.min_movel_4_semanas) = [2]) ∧
    (dfC5.filter (fun r => 19254 ≤ r.data && r.data < 19282) =
      dfC5b.filter (fun r => 19254 ≤ r.data && r.data < 19282)) := by decide

theorem getLast_eq_of_max {α : Type} (f : α → ℤ) :
    ∀ (l : List α) (x : α), List.Pairwise (fun a b => f a < f b) l → x ∈ l →
      (∀ b ∈ l, f b ≤ f x) → l.getLast? = some x := by
  intro l
  induction l with
  | nil => intro x _ hx; simp at hx
  | cons a t ih =>
      intro x hpw hx hmax
      cases t with
      | nil =>
          simp at hx
          subst hx
          rfl
      | cons b t2 =>
          rw [List.getLast?_cons_cons]
          rcases List.mem_cons.mp hx with h1 | h2
          · exfalso
            have hab : f a < f b := (List.pairwise_cons.mp hpw).1 b (by simp)
            have hba : f b ≤ f x := hmax b (by simp)
            subst h1
            omega
          · exact ih x (List.pairwise_cons.mp hpw).2 h2
              (fun c hc => hmax c (List.mem_cons_of_mem _ hc))

/-- In a frame pre ++ x :: suf whose rows respect within-group chronology
and sit on Monday-anchored week starts, the row of the same pair dated one
week before x, when present, is the last row of the group of x inside pre. -/
theorem before_getLast_srow (pre suf : List SRow) (x r2 : SRow)
    (hpw : List.Pairwise sameKeyLtS (pre ++ x :: suf))
    (halign : ∀ r ∈ pre ++ x :: suf, r.data % 7 = 4)
    (hp : r2.pdv = x.pdv) (hq : r2.produto = x.produto)
    (hd : r2.data = x.data - 7) (hr : r2 ∈ pre ++ x :: suf) :
    (pre.filter (sameKeyS x)).getLast? = some r2 := by
  have hpre : r2 ∈ pre := by
    rcases List.mem_append.mp hr with h | h
    · exact h
    · rcases List.mem_cons.mp h with h1 | h2
      · exfalso; rw [h1] at hd; omega
      · exfalso
        have hxs : List.Pairwise sameKeyLtS (x :: suf) :=
          (List.pairwise_append.mp hpw).2.1
        have hxr : sameKeyLtS x r2 := (List.pairwise_cons.mp hxs).1 r2 h2
        have := hxr hp.symm hq.symm
        omega
  have hrb : r2 ∈ pre.filter (sameKeyS x) :=
    List.mem_filter.mpr ⟨hpre, by simp [sameKeyS, hp, hq]⟩
  have hpwpre : List.Pairwise sameKeyLtS pre := (List.pairwise_append.mp hpw).1
  have hpwf : List.Pairwise (fun a b => a.data < b.data)
      (pre.filter (sameKeyS x)) := by
    refine List.Pairwise.imp_of_mem ?_ (hpwpre.filter (sameKeyS x))
    intro a b ha hb hab
    have hfa := (List.mem_filter.mp ha).2
    have hfb := (List.mem_filter.mp hb).2
    simp only [sameKeyS, Bool.and_eq_true, beq_iff_eq] at hfa hfb
    exact hab (hfa.1.trans hfb.1.symm) (hfa.2.trans hfb.2.symm)
  have hmax : ∀ b ∈ pre.filter (sameKeyS x), b.data ≤ r2.data := by
    intro b hb
    have hbp := (List.mem_filter.mp hb).1
    have hfb := (List.mem_filter.mp hb).2
    simp only [sameKeyS, Bool.and_eq_true, beq_iff_eq] at hfb
    have hbx : sameKeyLtS b x :=
      (List.pairwise_append.mp hpw).2.2 b hbp x (by simp)
    have hblt : b.data < x.data := hbx hfb.1 hfb.2
    have hb4 : b.data % 7 = 4 := halign b (List.mem_append_left _ hbp)
    have hx4 : x.data % 7 = 4 := halign x (by simp)
    omega
  exact getLast_eq_of_max (fun r => r.data) _ r2 hpwf hrb hmax

/-- Weekly-frame version of before_getLast_srow. -/
theorem before_getLast_weekly (pre suf : List WeeklyRow) (x r2 : WeeklyRow)
    (hpw : List.Pairwise sameKeyLtW (pre ++ x :: suf))
    (halign : ∀ r ∈ pre ++ x :: suf, r.data % 7 = 4)
    (hp : r2.pdv = x.pdv) (hq : r2.produto = x.produto)
    (hd : r2.data = x.data - 7) (hr : r2 ∈ pre ++ x :: suf) :
    (pre.filter (sameKeyW x)).getLast? = some r2 := by
  have hpre : r2 ∈ pre := by
    rcases List.mem_append.mp hr with h | h
    · exact h
    · rcases List.mem_cons.mp h with h1 | h2
      · exfalso; rw [h1] at hd; omega
      · exfalso
        have hxs : List.Pairwise sameKeyLtW (x :: suf) :=
          (List.pairwise_append.mp hpw).2.1
        have hxr : sameKeyLtW x r2 := (List.pairwise_cons.mp hxs).1 r2 h2
        have := hxr hp.symm hq.symm
        omega
  have hrb : r2 ∈ pre.filter (sameKeyW x) :=
    List.mem_filter.mpr ⟨hpre, by simp [sameKeyW, hp, hq]⟩
  have hpwpre : List.Pairwise sameKeyLtW pre := (List.pairwise_append.mp hpw).1
  have hpwf : List.Pairwise (fun a b => a.data < b.data)
      (pre.filter (sameKeyW x)) := by
    refine List.Pairwise.imp_of_mem ?_ (hpwpre.filter (sameKeyW x))
    intro a b ha hb hab
    have hfa := (List.mem_filter.mp ha).2
    have hfb := (List.mem_filter.mp hb).2
    simp only [sameKeyW, Bool.and_eq_true, beq_iff_eq] at hfa hfb
    exact hab (hfa.1.trans hfb.1.symm) (hfa.2.trans hfb.2.symm)
  have hmax : ∀ b ∈ pre.filter (sameKeyW x), b.data ≤ r2.data := by
    intro b hb
    have hbp := (List.mem_filter.mp hb).1
    have hfb := (List.mem_filter.mp hb).2
    simp only [sameKeyW, Bool.and_eq_true, beq_iff_eq] at hfb
    have hbx : sameKeyLtW b x :=
      (List.pairwise_append.mp hpw).2.2 b hbp x (by simp)
    have hblt : b.data < x.data := hbx hfb.1 hfb.2
    have hb4 : b.data % 7 = 4 := halign b (List.mem_append_left _ hbp)
    have hx4 : x.data % 7 = 4 := halign x (by simp)
    omega
  exact getLast_eq_of_max (fun r => r.data) _ r2 hpwf hrb hmax

theorem mem_loopFeaturesAux {sq : ℚ → ℚ} {w : ℤ} :
    ∀ {df pre : List SRow} {fr : FeatureRow},
    fr ∈ loopFeaturesAux sq w pre df →
    ∃ pre2 x suf, df = pre2 ++ x :: suf ∧ x.data = w ∧
      fr = featOf sq (pre ++ pre2) x := by
  intro df
  induction df with
  | nil => intro pre fr h; simp [loopFeaturesAux] at h
  | cons x rest ih =>
      intro pre fr h
      simp only [loopFeaturesAux] at h
      by_cases hx : x.data = w
      · rw [if_pos hx] at h
        rcases List.mem_cons.mp h with h1 | h2
        · exact ⟨[], x, rest, by simp, hx, by simpa using h1⟩
        · obtain ⟨p2, x2, s2, hrest, hx2, hfr⟩ := ih h2
          exact ⟨x :: p2, x2, s2, by simp [hrest], hx2,
            by simpa [List.append_assoc] using hfr⟩
      · rw [if_neg hx] at h
        obtain ⟨p2, x2, s2, hrest, hx2, hfr⟩ := ih h
        exact ⟨x :: p2, x2, s2, by simp [hrest], hx2,
          by simpa [List.append_assoc] using hfr⟩

theorem reverse_get_zero {α : Type} (l : List α) : l.reverse.get? 0 = l.getLast? := by
  rw [List.get?_zero, ← List.getLast?_eq_head?_reverse]

/-- In a frame pre ++ x :: suf whose rows respect within-group chronology,
the most recent same-pair row strictly older than x is the last row of the
group of x inside pre — no week alignment needed. -/
theorem before_getLast_max_srow (pre suf : List SRow) (x r2 : SRow)
    (hpw : List.Pairwise sameKeyLtS (pre ++ x :: suf))
    (hp : r2.pdv = x.pdv) (hq : r2.produto = x.produto)
    (hd : r2.data < x.data)
    (hmax : ∀ r3 ∈ pre ++ x :: suf, r3.pdv = x.pdv → r3.produto = x.produto →
      r3.data < x.data → r3.data ≤ r2.data)
    (hr : r2 ∈ pre ++ x :: suf) :
    (pre.filter (sameKeyS x)).getLast? = some r2 := by
  have hpre : r2 ∈ pre := by
    rcases List.mem_append.mp hr with h | h
    · exact h
    · rcases List.mem_cons.mp h with h1 | h2
      · exfalso; rw [h1] at hd; omega
      · exfalso
        have hxs : List.Pairwise sameKeyLtS (x :: suf) :=
          (List.pairwise_append.mp hpw).2.1
        have hxr : sameKeyLtS x r2 := (List.pairwise_cons.mp hxs).1 r2 h2
        have := hxr hp.symm hq.symm
        omega
  have hrb : r2 ∈ pre.filter (sameKeyS x) :=
    List.mem_filter.mpr ⟨hpre, by simp [sameKeyS, hp, hq]⟩
  have hpwpre : List.Pairwise sameKeyLtS pre := (List.pairwise_append.mp hpw).1
  have hpwf : List.Pairwise (fun a b => a.data < b.data)
      (pre.filter (sameKeyS x)) := by
    refine List.Pairwise.imp_of_mem ?_ (hpwpre.filter (sameKeyS x))
    intro a b ha hb hab
    have hfa := (List.mem_filter.mp ha).2
    have hfb := (List.mem_filter.mp hb).2
    simp only [sameKeyS, Bool.and_eq_true, beq_iff_eq] at hfa hfb
    exact hab (hfa.1.trans hfb.1.symm) (hfa.2.trans hfb.2.symm)
  have hmaxf : ∀ b ∈ pre.filter (sameKeyS x), b.data ≤ r2.data := by
    intro b hb
    have hbp := (List.mem_filter.mp hb).1
    have hfb := (List.mem_filter.mp hb).2
    simp only [sameKeyS, Bool.and_eq_true, beq_iff_eq] at hfb
    have hbx : sameKeyLtS b x :=
      (List.pairwise_append.mp hpw).2.2 b hbp x (by simp)
    exact hmax b (List.mem_append_left _ hbp) hfb.1 hfb.2 (hbx hfb.1 hfb.2)
  exact getLast_eq_of_max (fun r => r.data) _ r2 hpwf hrb hmaxf

/-- Weekly-frame version of before_getLast_max_srow. -/
theorem before_getLast_max_weekly (pre suf : List WeeklyRow) (x r2 : WeeklyRow)
    (hpw : List.Pairwise sameKeyLtW (pre ++ x :: suf))
    (hp : r2.pdv = x.pdv) (hq : r2.produto = x.produto)
    (hd : r2.data < x.data)
    (hmax : ∀ r3 ∈ pre ++ x :: suf, r3.pdv = x.pdv → r3.produto = x.produto →
      r3.data < x.data → r3.data ≤ r2.data)
    (hr : r2 ∈ pre ++ x :: suf) :
    (pre.filter (sameKeyW x)).getLast? = some r2 := by
  have hpre : r2 ∈ pre := by
    rcases List.mem_append.mp hr with h | h
    · exact h
    · rcases List.mem_cons.mp h with h1 | h2
      · exfalso; rw [h1] at hd; omega
      · exfalso
        have hxs : List.Pairwise sameKeyLtW (x :: suf) :=
          (List.pairwise_append.mp hpw).2.1
        have hxr : sameKeyLtW x r2 := (List.pairwise_cons.mp hxs).1 r2 h2
        have := hxr hp.symm hq.symm
        omega
  have hrb : r2 ∈ pre.filter (sameKeyW x) :=
    List.mem_filter.mpr ⟨hpre, by simp [sameKeyW, hp, hq]⟩
  have hpwpre : List.Pairwise sameKeyLtW pre := (List.pairwise_append.mp hpw).1
  have hpwf : List.Pairwise (fun a b => a.data < b.data)
      (pre.filter (sameKeyW x)) := by
    refine List.Pairwise.imp_of_mem ?_ (hpwpre.filter (sameKeyW x))
    intro a b ha hb hab
    have hfa := (List.mem_filter.mp ha).2
    have hfb := (List.mem_filter.mp hb).2
    simp only [sameKeyW, Bool.and_eq_true, beq_iff_eq] at hfa hfb
    exact hab (hfa.1.trans hfb.1.symm) (hfa.2.trans hfb.2.symm)
  have hmaxf : ∀ b ∈ pre.filter (sameKeyW x), b.data ≤ r2.data := by
    intro b hb
    have hbp := (List.mem_filter.mp hb).1
    have hfb := (List.mem_filter.mp hb).2
    simp only [sameKeyW, Bool.and_eq_true, beq_iff_eq] at hfb
    have hbx : sameKeyLtW b x :=
      (List.pairwise_append.mp hpw).2.2 b hbp x (by simp)
    exact hmax b (List.mem_append_left _ hbp) hfb.1 hfb.2 (hbx hfb.1 hfb.2)
  exact getLast_eq_of_max (fun r => r.data) _ r2 hpwf hrb hmaxf

/-- Claim C2, amended: for every entity pair and week w, whenever a row of
the same pair dated exactly one week earlier exists in the series being
featurised — in the forecast loop this includes rows whose quantities were
written back by earlier horizon steps — the 1-week lag feature equals that
row's quantity (in forecast mode a still-null quantity resolves to the zero
fill).  When no earlier row of the pair exists at all, the lag is null and
resolves per the fill policy (zero in forecast mode; in static mode the row
is dropped: every row create_features emits has an earlier same-pair row).
When week w-1 is missing but the pair has older rows, the lag instead takes
the most recent older row's quantity, in both modes — the original claim
wrongly asserted the drop/zero policy for that case.  Hypotheses: the frame
respects within-group chronology (and, for the one-week-earlier parts, all
week starts are Monday anchored), as the sorted pipeline frames are. -/
theorem c2_amended :
    (∀ (sq : ℚ → ℚ) (w : ℤ) (df : List SRow) (fr : FeatureRow),
      List.Pairwise sameKeyLtS df →
      (∀ r ∈ df, r.data % 7 = 4) →
      fr ∈ loopFeatures sq df w →
      (∀ r2 ∈ df, r2.pdv = fr.pdv → r2.produto = fr.produto →
        r2.data = fr.data - 7 →
        fr.lag_1_semana = (r2.quantidade_semanal).getD 0) ∧
      ((∀ r2 ∈ df, r2.pdv = fr.pdv → r2.produto = fr.produto →
          r2.data < fr.data → False) →
        fr.lag_1_semana = 0)) ∧
    (∀ (df : List WeeklyRow) (fr : FeatRow),
      List.Pairwise sameKeyLtW df →
      (∀ r ∈ df, r.data % 7 = 4) →
      fr ∈ create_features df →
      ∀ r2 ∈ df, r2.pdv = fr.pdv → r2.produto = fr.produto →
        r2.data = fr.data - 7 →
        fr.lag_1_semana = r2.quantidade_semanal) ∧
    (∀ (sq : ℚ → ℚ) (w : ℤ) (df : List SRow) (fr : FeatureRow),
      List.Pairwise sameKeyLtS df →
      fr ∈ loopFeatures sq df w →
      ∀ r2 ∈ df, r2.pdv = fr.pdv → r2.produto = fr.produto →
        r2.data < fr.data →
        (∀ r3 ∈ df, r3.pdv = fr.pdv → r3.produto = fr.produto →
          r3.data < fr.data → r3.data ≤ r2.data) →
        fr.lag_1_semana = (r2.quantidade_semanal).getD 0) ∧
    (∀ (df : List WeeklyRow) (fr : FeatRow),
      List.Pairwise sameKeyLtW df →
      fr ∈ create_features df →
      ∀ r2 ∈ df, r2.pdv = fr.pdv → r2.produto = fr.produto →
        r2.data < fr.data →
        (∀ r3 ∈ df, r3.pdv = fr.pdv → r3.produto = fr.produto →
          r3.data < fr.data → r3.data ≤ r2.data) →
        fr.lag_1_semana = r2.quantidade_semanal) ∧
    (∀ (df : List WeeklyRow) (fr : FeatRow),
      List.Pairwise sameKeyLtW df →
      fr ∈ create_features df →
      ∃ r2 ∈ df, r2.pdv = fr.pdv ∧ r2.produto = fr.produto ∧
        r2.data < fr.data) := by
  refine ⟨?_, ?_, ?_, ?_, ?_⟩
  · intro sq w df fr hpw halign hmem
    obtain ⟨pre2, x, suf, hdf, hxw, hfr⟩ := mem_loopFeaturesAux hmem
    subst hdf
    have hfp : fr.pdv = x.pdv := by rw [hfr]; rfl
    have hfq : fr.produto = x.produto := by rw [hfr]; rfl
    have hfd : fr.data = x.data := by rw [hfr]; rfl
    constructor
    · intro r2 hr2 hp hq hd
      rw [hfp] at hp
      rw [hfq] at hq
      rw [hfd] at hd
      have hgl := before_getLast_srow pre2 suf x r2 hpw halign hp hq hd hr2
      rw [hfr]
      show ((((([] : List SRow) ++ pre2).filter
          (sameKeyS x)).reverse.get? (1 - 1)).bind (·.quantidade_semanal)).getD 0 = _
      rw [List.nil_append]
      rw [show (1 - 1 : ℕ) = 0 from rfl, reverse_get_zero, hgl]
      rfl
    · intro hno
      have hempty : pre2.filter (sameKeyS x) = [] := by
        rw [List.filter_eq_nil_iff]
        intro b hb hkey
        simp only [sameKeyS, Bool.and_eq_true, beq_iff_eq] at hkey
        have hbx : sameKeyLtS b x :=
          (List.pairwise_append.mp hpw).2.2 b hb x (by simp)
        exact hno b (List.mem_append_left _ hb)
          (by rw [hfp]; exact hkey.1) (by rw [hfq]; exact hkey.2)
          (by rw [hfd]; exact hbx hkey.1 hkey.2)
    -- close the remaining goal: the lag over an empty group is the fill zero
      rw [hfr]
      show ((((([] : List SRow) ++ pre2).filter
          (sameKeyS x)).reverse.get? (1 - 1)).bind (·.quantidade_semanal)).getD 0 = 0
      rw [List.nil_append, hempty]
      rfl
  · intro df fr hpw halign hmem
    obtain ⟨pre2, x, suf, hdf, hmk⟩ := mem_createFeaturesAux hmem
    subst hdf
    rw [List.nil_append] at hmk
    simp only [mkFeatRow] at hmk
    split at hmk
    · next l1 l2 l4 mv heq1 heq2 heq4 heqm =>
        cases hmk
        intro r2 hr2 hp hq hd
        have hgl := before_getLast_weekly pre2 suf x r2 hpw halign hp hq hd hr2
        rw [reverse_get_zero, hgl] at heq1
        simpa using heq1.symm
    · cases hmk
  · intro sq w df fr hpw hmem r2 hr2 hp hq hd hmax
    obtain ⟨pre2, x, suf, hdf, hxw, hfr⟩ := mem_loopFeaturesAux hmem
    subst hdf
    have hfp : fr.pdv = x.pdv := by rw [hfr]; rfl
    have hfq : fr.produto = x.produto := by rw [hfr]; rfl
    have hfd : fr.data = x.data := by rw [hfr]; rfl
    rw [hfp] at hp
    rw [hfq] at hq
    rw [hfd] at hd
    have hmax2 : ∀ r3 ∈ pre2 ++ x :: suf, r3.pdv = x.pdv →
        r3.produto = x.produto → r3.data < x.data → r3.data ≤ r2.data := by
      intro r3 h3 h3p h3q h3d
      exact hmax r3 h3 (by rw [hfp]; exact h3p) (by rw [hfq]; exact h3q)
        (by rw [hfd]; exact h3d)
    have hgl := before_getLast_max_srow pre2 suf x r2 hpw hp hq hd hmax2 hr2
    rw [hfr]
    show ((((([] : List SRow) ++ pre2).filter
        (sameKeyS x)).reverse.get? (1 - 1)).bind (·.quantidade_semanal)).getD 0 = _
    rw [List.nil_append]
    rw [show (1 - 1 : ℕ) = 0 from rfl, reverse_get_zero, hgl]
    rfl
  · intro df fr hpw hmem r2 hr2 hp hq hd hmax
    obtain ⟨pre2, x, suf, hdf, hmk⟩ := mem_createFeaturesAux hmem
    subst hdf
    rw [List.nil_append] at hmk
    simp only [mkFeatRow] at hmk
    split at hmk
    · next l1 l2 l4 mv heq1 heq2 heq4 heqm =>
        cases hmk
        have hp2 : r2.pdv = x.pdv := hp
        have hq2 : r2.produto = x.produto := hq
        have hd2 : r2.data < x.data := hd
        have hmax2 : ∀ r3 ∈ pre2 ++ x :: suf, r3.pdv = x.pdv →
            r3.produto = x.produto → r3.data < x.data → r3.data ≤ r2.data :=
          fun r3 h3 h3p h3q h3d => hmax r3 h3 h3p h3q h3d
        have hgl := before_getLast_max_weekly pre2 suf x r2 hpw hp2 hq2 hd2
          hmax2 hr2
        rw [reverse_get_zero, hgl] at heq1
        simpa using heq1.symm
    · cases hmk
  · intro df fr hpw hmem
    obtain ⟨pre2, x, suf, hdf, hmk⟩ := mem_createFeaturesAux hmem
    subst hdf
    rw [List.nil_append] at hmk
    simp only [mkFeatRow] at hmk
    split at hmk
    · next l1 l2 l4 mv heq1 heq2 heq4 heqm =>
        cases hmk
        cases hb : pre2.filter (sameKeyW x) with
        | nil =>
            rw [hb] at heq1
            simp at heq1
        | cons b bs =>
            have hbmem : b ∈ pre2.filter (sameKeyW x) := by
              rw [hb]
              exact List.mem_cons_self b bs
            have hbpre := (List.mem_filter.mp hbmem).1
            have hkey := (List.mem_filter.mp hbmem).2
            simp only [sameKeyW, Bool.and_eq_true, beq_iff_eq] at hkey
            have hlt : b.data < x.data :=
              (List.pairwise_append.mp hpw).2.2 b hbpre x (by simp)
                hkey.1 hkey.2
            exact ⟨b, List.mem_append_left _ hbpre, hkey.1, hkey.2, hlt⟩
    · cases hmk

theorem c2_witness :
    (featOf id [⟨19352, 1, 1, some 3, none⟩]
      (⟨19359, 1, 1, none, none⟩ : SRow)).lag_1_semana = 3 ∧
    (featOf id [⟨19338, 1, 1, some 7, none⟩]
      (⟨19359, 1, 1, none, none⟩ : SRow)).lag_1_semana = 7 :=
  ⟨((c2_amended.1 id 19359
      [⟨19352, 1, 1, some 3, none⟩, ⟨19359, 1, 1, none, none⟩]
      (featOf id [⟨19352, 1, 1, some 3, none⟩] ⟨19359, 1, 1, none, none⟩)
      (by decide) (by decide) (by decide)).1
    ⟨19352, 1, 1, some 3, none⟩ (by decide) (by decide) (by decide) (by decide)),
   (c2_amended.2.2.1 id 19359
      [⟨19338, 1, 1, some 7, none⟩, ⟨19359, 1, 1, none, none⟩]
      (featOf id [⟨19338, 1, 1, some 7, none⟩] ⟨19359, 1, 1, none, none⟩)
      (by decide) (by decide)
    ⟨19338, 1, 1, some 7, none⟩ (by decide) (by decide) (by decide) (by decide)
      (by decide))⟩

/-- Claim C5, amended: the rolling statistics at a row of week w are
computed over the quantities of the at most four rows of the same entity
pair immediately preceding that row in the series — its most recent prior
weeks as present, not necessarily the calendar weeks w-1..w-4 — after the
window is lagged by one, and they resolve only when four such quantities
exist; every windowed quantity belongs to a same-pair row strictly earlier
than w, so no rolling statistic at week w ever includes week w's own
quantity.  In the forecast loop the deriver computes mean, standard
deviation, min and max from this window; the static deriver computes only
the rolling mean. -/
theorem c5_amended :
    (∀ (pre suf : List SRow) (x : SRow) (v : List ℚ),
      List.Pairwise sameKeyLtS (pre ++ x :: suf) →
      rollWindowOf (pre.filter (sameKeyS x)) = some v →
      v.length = 4 ∧
      ∀ q ∈ v, ∃ r2 ∈ pre, (r2.pdv = x.pdv ∧ r2.produto = x.produto) ∧
        r2.data < x.data ∧ r2.quantidade_semanal = some q) ∧
    (∀ (sq : ℚ → ℚ) (pre : List SRow) (x : SRow),
      (featOf sq pre x).media_movel_4_semanas =
        ((rollWindowOf (pre.filter (sameKeyS x))).map meanQ).getD 0 ∧
      (featOf sq pre x).desvio_padrao_movel_4_semanas =
        ((rollWindowOf (pre.filter (sameKeyS x))).map
          (fun u => sq (sampleVarQ u))).getD 0 ∧
      (featOf sq pre x).min_movel_4_semanas =
        ((rollWindowOf (pre.filter (sameKeyS x))).map minQ).getD 0 ∧
      (featOf sq pre x).max_movel_4_semanas =
        ((rollWindowOf (pre.filter (sameKeyS x))).map maxQ).getD 0) ∧
    (∀ (m : ℚ) (pre suf : List WeeklyRow) (x : WeeklyRow) (fr : FeatRow),
      List.Pairwise sameKeyLtW (pre ++ x :: suf) →
      mkFeatRow m pre x = some fr →
      fr.media_movel_4_semanas =
        (((pre.filter (sameKeyW x)).reverse.take 4).map
          (·.quantidade_semanal)).sum / 4 ∧
      4 ≤ (pre.filter (sameKeyW x)).length ∧
      ∀ q ∈ ((pre.filter (sameKeyW x)).reverse.take 4).map (·.quantidade_semanal),
        ∃ r2 ∈ pre, (r2.pdv = x.pdv ∧ r2.produto = x.produto) ∧
          r2.data < x.data ∧ r2.quantidade_semanal = q) := by
  refine ⟨?_, ?_, ?_⟩
  · intro pre suf x v hpw hroll
    simp only [rollWindowOf] at hroll
    split at hroll
    · next hcond =>
        cases hroll
        refine ⟨hcond.2, ?_⟩
        intro q hq
        obtain ⟨r2, hr2w, hr2q⟩ := List.mem_filterMap.mp hq
        have hr2rev : r2 ∈ (pre.filter (sameKeyS x)).reverse :=
          List.mem_of_mem_take hr2w
        have hr2f : r2 ∈ pre.filter (sameKeyS x) := List.mem_reverse.mp hr2rev
        have hr2pre : r2 ∈ pre := (List.mem_filter.mp hr2f).1
        have hkey := (List.mem_filter.mp hr2f).2
        simp only [sameKeyS, Bool.and_eq_true, beq_iff_eq] at hkey
        have hlt : r2.data < x.data :=
          (List.pairwise_append.mp hpw).2.2 r2 hr2pre x (by simp) hkey.1 hkey.2
        exact ⟨r2, hr2pre, ⟨hkey.1, hkey.2⟩, hlt, hr2q⟩
    · cases hroll
  · intro sq pre x
    exact ⟨rfl, rfl, rfl, rfl⟩
  · intro m pre suf x fr hpw hmk
    simp only [mkFeatRow] at hmk
    split at hmk
    · next l1 l2 l4 mv heq1 heq2 heq4 heqm =>
        cases hmk
        have hlen : 4 ≤ (pre.filter (sameKeyW x)).length := by
          by_contra hlt
          rw [if_neg hlt] at heqm
          cases heqm
        rw [if_pos hlen] at heqm
        cases heqm
        refine ⟨rfl, hlen, ?_⟩
        intro q hq
        obtain ⟨r2, hr2w, hr2q⟩ := List.mem_map.mp hq
        have hr2rev : r2 ∈ (pre.filter (sameKeyW x)).reverse :=
          List.mem_of_mem_take hr2w
        have hr2f : r2 ∈ pre.filter (sameKeyW x) := List.mem_reverse.mp hr2rev
        have hr2pre : r2 ∈ pre := (List.mem_filter.mp hr2f).1
        have hkey := (List.mem_filter.mp hr2f).2
        simp only [sameKeyW, Bool.and_eq_true, beq_iff_eq] at hkey
        have hlt : r2.data < x.data :=
          (List.pairwise_append.mp hpw).2.2 r2 hr2pre x (by simp) hkey.1 hkey.2
        exact ⟨r2, hr2pre, ⟨hkey.1, hkey.2⟩, hlt, hr2q⟩
    · cases hmk

theorem c5_witness :
    ((([4, 3, 2, 1] : List ℚ).length = 4) ∧
      ∀ q ∈ ([4, 3, 2, 1] : List ℚ),
        ∃ r2 ∈ [(⟨19240, 1, 1, some 1, none⟩ : SRow),
            ⟨19247, 1, 1, some 2, none⟩, ⟨19254, 1, 1, some 3, none⟩,
            ⟨19261, 1, 1, some 4, none⟩],
          (r2.pdv = 1 ∧ r2.produto = 1) ∧ r2.data < 19268 ∧
          r2.quantidade_semanal = some q) :=
  c5_amended.1
    [⟨19240, 1, 1, some 1, none⟩, ⟨19247, 1, 1, some 2, none⟩,
     ⟨19254, 1, 1, some 3, none⟩, ⟨19261, 1, 1, some 4, none⟩]
    [] ⟨19268, 1, 1, none, none⟩ [4, 3, 2, 1] (by decide) (by decide)

theorem countP_le_one_of_nodup_map {A B : Type} [BEq B] [LawfulBEq B]
    (f : A → B) (l : List A) (hnd : (l.map f).Nodup) (b : B) :
    l.countP (fun a => f a == b) ≤ 1 := by
  induction l with
  | nil => simp
  | cons a t ih =>
      simp only [List.map_cons, List.nodup_cons] at hnd
      rw [List.countP_cons]
      by_cases h : (f a == b) = true
      · have hz : t.countP (fun a2 => f a2 == b) = 0 := by
          rw [List.countP_eq_zero]
          intro c hc hcb
          apply hnd.1
          rw [beq_iff_eq] at h hcb
          rw [h, ← hcb]
          exact List.mem_map_of_mem f hc
        rw [hz, h]
        simp
      · have hle := ih hnd.2
        rw [if_neg h]
        omega

/-- Claim C6: in the corrected weekly series, every entity pair owning a row
at the week before the configured anomalous week has, at the anomalous
week's date, exactly one row carrying that preceding row's quantity and
net-value sums; the preceding week's own row is still present unchanged;
and a pair with no row at the preceding week has no row at the anomalous
week — no row is fabricated.  The uniqueness hypothesis (at most one row
per key) is the §3 weekly-series invariant guaranteed by the aggregation. -/
theorem c6_outlier (df : List WeeklyRow) (hnd : (wkeys df).Nodup) (p q : ℤ) :
    (∀ r ∈ df, r.data = dataAnterior → r.pdv = p → r.produto = q →
      r ∈ corrigirOutlier df ∧
      { r with data := dataPico } ∈ corrigirOutlier df ∧
      (corrigirOutlier df).countP
        (fun s => s.data == dataPico && s.pdv == p && s.produto == q) = 1) ∧
    ((∀ r ∈ df, ¬(r.data = dataAnterior ∧ r.pdv = p ∧ r.produto = q)) →
      ∀ s ∈ corrigirOutlier df, s.pdv = p → s.produto = q →
        s.data ≠ dataPico) := by
  have hperm : List.Perm (corrigirOutlier df)
      (df.filter (fun r => r.data != dataPico) ++
        (df.filter (fun r => r.data == dataAnterior)).map
          (fun r => { r with data := dataPico })) := by
    unfold corrigirOutlier
    exact List.perm_insertionSort wLe _
  constructor
  · intro r hr hrd hrp hrq
    refine ⟨?_, ?_, ?_⟩
    · refine hperm.mem_iff.mpr (List.mem_append_left _ ?_)
      exact List.mem_filter.mpr ⟨hr, by rw [hrd]; decide⟩
    · refine hperm.mem_iff.mpr (List.mem_append_right _ ?_)
      exact List.mem_map.mpr
        ⟨r, List.mem_filter.mpr ⟨hr, by rw [hrd]; decide⟩, rfl⟩
    · rw [List.Perm.countP_eq _ hperm, List.countP_append]
      have h1 : (df.filter (fun r => r.data != dataPico)).countP
          (fun s => s.data == dataPico && s.pdv == p && s.produto == q) = 0 := by
        rw [List.countP_eq_zero]
        intro a ha hpa
        have hane := (List.mem_filter.mp ha).2
        simp only [Bool.and_eq_true, beq_iff_eq] at hpa
        rw [hpa.1.1] at hane
        simp at hane
      rw [h1, List.countP_map, List.countP_filter]
      have hcg : List.countP
          (fun a => ((fun s => s.data == dataPico && s.pdv == p && s.produto == q) ∘
            (fun r => { r with data := dataPico })) a && (a.data == dataAnterior)) df =
          List.countP (fun a =>
            (a.data, a.pdv, a.produto) == (dataAnterior, p, q)) df := by
        apply List.countP_congr
        intro a ha
        simp [Function.comp]
        constructor
        · rintro ⟨⟨h1a, h2a⟩, h3a⟩; exact ⟨h3a, h1a, h2a⟩
        · rintro ⟨h3a, h1a, h2a⟩; exact ⟨⟨h1a, h2a⟩, h3a⟩
      rw [hcg]
      have hle : List.countP (fun a =>
          (a.data, a.pdv, a.produto) == (dataAnterior, p, q)) df ≤ 1 := by
        unfold wkeys at hnd
        exact countP_le_one_of_nodup_map _ df hnd _
      have hge : 0 < List.countP (fun a =>
          (a.data, a.pdv, a.produto) == (dataAnterior, p, q)) df := by
        rw [List.countP_pos_iff]
        exact ⟨r, hr, by rw [hrd, hrp, hrq]; exact beq_self_eq_true _⟩
      omega
  · intro hnone s hs hp2 hq2
    rcases List.mem_append.mp (hperm.mem_iff.mp hs) with h | h
    · have hne := (List.mem_filter.mp h).2
      intro heq
      rw [heq] at hne
      simp at hne
    · obtain ⟨r0, hr0f, hmapeq⟩ := List.mem_map.mp h
      have hr0 := List.mem_filter.mp hr0f
      exfalso
      apply hnone r0 hr0.1
      rw [← hmapeq] at hp2 hq2
      exact ⟨by simpa using hr0.2, hp2, hq2⟩

theorem c6_witness :
    ((wkeys [(⟨19233, 1, 1, 5, 50⟩ : WeeklyRow), ⟨19240, 1, 1, 999, 9990⟩]).Nodup) ∧
    ((∀ r ∈ [(⟨19233, 1, 1, 5, 50⟩ : WeeklyRow), ⟨19240, 1, 1, 999, 9990⟩],
        r.data = dataAnterior → r.pdv = 1 → r.produto = 1 →
        r ∈ corrigirOutlier [⟨19233, 1, 1, 5, 50⟩, ⟨19240, 1, 1, 999, 9990⟩] ∧
        { r with data := dataPico } ∈
          corrigirOutlier [⟨19233, 1, 1, 5, 50⟩, ⟨19240, 1, 1, 999, 9990⟩] ∧
        (corrigirOutlier [⟨19233, 1, 1, 5, 50⟩, ⟨19240, 1, 1, 999, 9990⟩]).countP
          (fun s => s.data == dataPico && s.pdv == 1 && s.produto == 1) = 1) ∧
      ((∀ r ∈ [(⟨19233, 1, 1, 5, 50⟩ : WeeklyRow), ⟨19240, 1, 1, 999, 9990⟩],
          ¬(r.data = dataAnterior ∧ r.pdv = 1 ∧ r.produto = 1)) →
        ∀ s ∈ corrigirOutlier [⟨19233, 1, 1, 5, 50⟩, ⟨19240, 1, 1, 999, 9990⟩],
          s.pdv = 1 → s.produto = 1 → s.data ≠ dataPico)) :=
  ⟨by decide, c6_outlier [⟨19233, 1, 1, 5, 50⟩, ⟨19240, 1, 1, 999, 9990⟩]
    (by decide) 1 1⟩

theorem mem_runLoop_result {model : XRow → ℚ} {em sq : ℚ → ℚ} :
    ∀ (ws : List ℤ) (df : List SRow) (o : ResultRow),
    o ∈ (runLoop model em sq ws df).2 →
    ∃ fr : FeatureRow, o = ⟨fr.data, fr.pdv, fr.produto,
      max 0 (roundHalfEven (em (model (selectFeatures fr))))⟩ := by
  intro ws
  induction ws with
  | nil => intro df o h; simp [runLoop] at h
  | cons w ws2 ih =>
      intro df o h
      simp only [runLoop] at h
      rcases List.mem_append.mp h with h1 | h2
      · simp only [runStep, predStep] at h1
        obtain ⟨fr, hfr, heq⟩ := List.mem_map.mp h1
        exact ⟨fr, heq.symm⟩
      · exact ih _ o h2

/-- Claim C7: every output row of the forecast carries a non-negative
integer quantity obtained from some feature row by applying the regressor,
the declared inverse output transform em (np.expm1 for the log1p-trained
model), half-even rounding to the nearest integer, and the clamp of
negatives to zero — whatever sign or fraction the raw composite value has;
each feature row fed to predStep yields exactly that row; and the rounding
really is to a nearest integer, off by at most one half. -/
theorem c7_postprocess :
    (∀ (model : XRow → ℚ) (em sq : ℚ → ℚ) (dfm : List FeatRow)
        (pairs : List (ℤ × ℤ)) (o : SubRow),
      o ∈ generate_predictions model em sq dfm pairs →
      0 ≤ o.quantidade ∧ ∃ fr : FeatureRow,
        o.quantidade = max 0 (roundHalfEven (em (model (selectFeatures fr))))) ∧
    (∀ (model : XRow → ℚ) (em : ℚ → ℚ) (feats : List FeatureRow)
        (fr : FeatureRow), fr ∈ feats →
      (⟨fr.data, fr.pdv, fr.produto,
        max 0 (roundHalfEven (em (model (selectFeatures fr))))⟩ : ResultRow)
        ∈ predStep model em feats) ∧
    (∀ q : ℚ, |((roundHalfEven q : ℤ) : ℚ) - q| ≤ 1 / 2) := by
  refine ⟨?_, ?_, ?_⟩
  · intro model em sq dfm pairs o ho
    simp only [generate_predictions] at ho
    obtain ⟨r, hr, heq⟩ := List.mem_map.mp ho
    obtain ⟨fr, hfr⟩ := mem_runLoop_result semanasJan2023 _ r hr
    constructor
    · rw [← heq]
      simp [hfr]
    · refine ⟨fr, ?_⟩
      rw [← heq, hfr]
  · intro model em feats fr hfr
    exact List.mem_map.mpr ⟨fr, hfr, rfl⟩
  · intro q
    have h1 : ((⌊q⌋ : ℤ) : ℚ) ≤ q := Int.floor_le q
    have h2 : q < (⌊q⌋ : ℚ) + 1 := Int.lt_floor_add_one q
    unfold roundHalfEven
    dsimp only
    split_ifs with ha hb hc
    · rw [abs_le]; constructor <;> linarith
    · rw [abs_le]; push_cast; constructor <;> linarith
    · rw [abs_le]; constructor <;> linarith
    · rw [abs_le]; push_cast; constructor <;> linarith

theorem c7_witness :
    (⟨19359, 1, 1, max 0 (roundHalfEven (id ((fun _ => (0 : ℚ))
        (selectFeatures (featOf id [] ⟨19359, 1, 1, none, none⟩)))))⟩ : ResultRow)
      ∈ predStep (fun _ => (0 : ℚ)) id
          [featOf id [] ⟨19359, 1, 1, none, none⟩] :=
  c7_postprocess.2.1 (fun _ => (0 : ℚ)) id
    [featOf id [] ⟨19359, 1, 1, none, none⟩]
    (featOf id [] ⟨19359, 1, 1, none, none⟩) (by simp)

theorem fillForwardAux_keys :
    ∀ (df : List SRow) (last : Option ℚ),
    (fillForwardAux last df).map skey = df.map skey := by
  intro df
  induction df with
  | nil => intro last; rfl
  | cons r rest ih =>
      intro last
      obtain ⟨d, pv, pr, qs, pl⟩ := r
      cases pl with
      | some v => simp [fillForwardAux, skey, ih]
      | none => simp [fillForwardAux, skey, ih]

theorem updateSeries_keys (df : List SRow) (res : List ResultRow) :
    (updateSeries df res).map skey = df.map skey := by
  unfold updateSeries
  rw [List.map_map]
  apply List.map_congr_left
  intro r hr
  cases hfind : res.find? (fun u => u.data == r.data && u.pdv == r.pdv &&
      u.produto == r.produto) with
  | some u => simp [Function.comp, hfind, skey]
  | none => simp [Function.comp, hfind]

theorem loopFeaturesAux_keys (sq : ℚ → ℚ) (w : ℤ) :
    ∀ (df pre : List SRow),
    (loopFeaturesAux sq w pre df).map (fun fr => (fr.data, fr.pdv, fr.produto)) =
      (df.filter (fun r => r.data == w)).map skey := by
  intro df
  induction df with
  | nil => intro pre; rfl
  | cons x rest ih =>
      intro pre
      simp only [loopFeaturesAux, List.filter_cons]
      by_cases hx : x.data = w
      · simp [hx, ih, featOf, skey]
      · simp [hx, ih]

theorem predStep_keys (model : XRow → ℚ) (em : ℚ → ℚ) (feats : List FeatureRow) :
    (predStep model em feats).map rkey =
      feats.map (fun fr => (fr.data, fr.pdv, fr.produto)) := by
  unfold predStep
  rw [List.map_map]
  rfl

/-- One horizon step preserves the key column of the working series. -/
theorem runStep_keys (model : XRow → ℚ) (em sq : ℚ → ℚ) (df : List SRow) (w : ℤ) :
    ((runStep model em sq df w).1).map skey = df.map skey := by
  show (updateSeries (fillForward df) _).map skey = _
  rw [updateSeries_keys]
  exact fillForwardAux_keys df none

/-- The keys of the rows a horizon step resolves: exactly the keys of the
working series dated at the step's week. -/
theorem fillForward_keys (df : List SRow) :
    (fillForward df).map skey = df.map skey :=
  fillForwardAux_keys df none

theorem filter_week_map_skey (w : ℤ) (l : List SRow) :
    (l.filter (fun r => r.data == w)).map skey =
      (l.map skey).filter (fun k => k.1 == w) := by
  have h := @List.filter_map SRow (ℤ × ℤ × ℤ) (fun k => k.1 == w) skey l
  rw [h]
  rfl

theorem runStep_result_keys (model : XRow → ℚ) (em sq : ℚ → ℚ)
    (df : List SRow) (w : ℤ) :
    ((runStep model em sq df w).2).map rkey =
      (df.map skey).filter (fun k => k.1 == w) := by
  show (predStep model em (loopFeatures sq (fillForward df) w)).map rkey = _
  rw [predStep_keys]
  unfold loopFeatures
  rw [loopFeaturesAux_keys, filter_week_map_skey, fillForward_keys]

theorem runLoop_keys (model : XRow → ℚ) (em sq : ℚ → ℚ) :
    ∀ (ws : List ℤ) (df : List SRow),
    ((runLoop model em sq ws df).2).map rkey =
      ws.flatMap (fun w => (df.map skey).filter (fun k => k.1 == w)) := by
  intro ws
  induction ws with
  | nil => intro df; rfl
  | cons w ws2 ih =>
      intro df
      simp only [runLoop, List.flatMap_cons]
      rw [List.map_append]
      congr 1
      · exact runStep_result_keys model em sq df w
      · rw [ih, runStep_keys]

theorem skel_countP (g : ℤ × ℤ × ℤ → Bool) :
    ∀ (pairs : List (ℤ × ℤ)),
    ((mkSkeleton pairs).map skey).countP g =
      (pairs.map (fun p =>
        (semanasJan2023.map (fun w => (w, p.1, p.2))).countP g)).sum := by
  intro pairs
  induction pairs with
  | nil => rfl
  | cons p ps ih =>
      simp only [mkSkeleton, List.flatMap_cons, List.map_append,
        List.countP_append, List.map_cons, List.sum_cons, List.map_map]
      have h2 : ((ps.flatMap (fun p2 => semanasJan2023.map
          (fun w => (⟨w, p2.1, p2.2, none, none⟩ : SRow)))).map skey).countP g =
          (ps.map (fun p2 => (semanasJan2023.map
            (fun w => (w, p2.1, p2.2))).countP g)).sum := by
        simpa [mkSkeleton] using ih
      rw [← h2]
      rfl

theorem sum_map_eq_single {A : Type} (l : List A) (c : A → ℕ) (a : A)
    (hnd : l.Nodup) (ha : a ∈ l) (hz : ∀ b ∈ l, b ≠ a → c b = 0) :
    (l.map c).sum = c a := by
  induction l with
  | nil => cases ha
  | cons x t ih =>
      simp only [List.nodup_cons] at hnd
      simp only [List.map_cons, List.sum_cons]
      rcases List.mem_cons.mp ha with h1 | h2
      · subst h1
        have hzt : (t.map c).sum = 0 := by
          apply List.sum_eq_zero
          intro y hy
          obtain ⟨b, hb, rfl⟩ := List.mem_map.mp hy
          exact hz b (List.mem_cons_of_mem _ hb)
            (fun hba => hnd.1 (hba ▸ hb))
        omega
      · rw [hz x (by simp) (fun hxa => hnd.1 (hxa ▸ h2))]
        have := ih hnd.2 h2
          (fun b hb hba => hz b (List.mem_cons_of_mem _ hb) hba)
        omega

theorem sum_map_one {A : Type} (l : List A) :
    (l.map (fun _ => 1)).sum = l.length := by
  induction l with
  | nil => rfl
  | cons a t ih => simp [ih]; omega

theorem countP_flatMap {A B : Type} (l : List A) (f : A → List B) (g : B → Bool) :
    (l.flatMap f).countP g = (l.map (fun a => (f a).countP g)).sum := by
  induction l with
  | nil => rfl
  | cons a t ih => simp [List.flatMap_cons, List.countP_append, ih]

/-- Seed rows never sit on a horizon week, so counting keys that can only
match horizon weeks sees the skeleton alone. -/
theorem df0_week_count (dfm : List FeatRow) (pairs : List (ℤ × ℤ))
    (hhist : ∀ r ∈ dfm, r.data ∉ semanasJan2023)
    (g : ℤ × ℤ × ℤ → Bool) (hg : ∀ k, g k = true → k.1 ∈ semanasJan2023) :
    ((sortRows ((dfm.filter (fun r => cutoffData < r.data)).map toSRow ++
        mkSkeleton pairs)).map skey).countP g =
      ((mkSkeleton pairs).map skey).countP g := by
  have hperm : List.Perm
      ((sortRows ((dfm.filter (fun r => cutoffData < r.data)).map toSRow ++
        mkSkeleton pairs)).map skey)
      ((((dfm.filter (fun r => cutoffData < r.data)).map toSRow ++
        mkSkeleton pairs)).map skey) :=
    (List.perm_insertionSort rowLe _).map skey
  rw [List.Perm.countP_eq g hperm, List.map_append, List.countP_append]
  have hz : (((dfm.filter (fun r => cutoffData < r.data)).map toSRow).map
      skey).countP g = 0 := by
    rw [List.countP_eq_zero]
    intro k hk hgk
    obtain ⟨srow, hsrow, rfl⟩ := List.mem_map.mp hk
    obtain ⟨r, hr, rfl⟩ := List.mem_map.mp hsrow
    have hrdfm := (List.mem_filter.mp hr).1
    have hmem := hg _ hgk
    simp only [toSRow, skey] at hmem
    exact hhist r hrdfm hmem
  rw [hz]
  omega

theorem skel_week_count (pairs : List (ℤ × ℤ)) (w : ℤ)
    (hw : w ∈ semanasJan2023) :
    ((mkSkeleton pairs).map skey).countP (fun k => k.1 == w) = pairs.length := by
  rw [skel_countP]
  have hone : ∀ p ∈ pairs,
      (fun p : ℤ × ℤ => (semanasJan2023.map
        (fun w2 => (w2, p.1, p.2))).countP (fun k => k.1 == w)) p =
      (fun _ : ℤ × ℤ => 1) p := by
    intro p hp
    show (semanasJan2023.map (fun w2 => (w2, p.1, p.2))).countP
      (fun k => k.1 == w) = 1
    rw [List.countP_map]
    show List.countP (fun w2 => w2 == w) semanasJan2023 = 1
    fin_cases hw <;> decide
  rw [List.map_congr_left hone, sum_map_one]

theorem skel_pair_week_count (pairs : List (ℤ × ℤ)) (hnd : pairs.Nodup)
    (p : ℤ × ℤ) (hp : p ∈ pairs) (q : ℤ → Bool) :
    ((mkSkeleton pairs).map skey).countP
        (fun k => (k.2.1 == p.1 && k.2.2 == p.2) && q k.1) =
      semanasJan2023.countP q := by
  rw [skel_countP]
  have hz : ∀ b ∈ pairs, b ≠ p →
      (fun b : ℤ × ℤ => (semanasJan2023.map (fun w2 => (w2, b.1, b.2))).countP
        (fun k => (k.2.1 == p.1 && k.2.2 == p.2) && q k.1)) b = 0 := by
    intro b hb hbp
    show (semanasJan2023.map (fun w2 => (w2, b.1, b.2))).countP
      (fun k => (k.2.1 == p.1 && k.2.2 == p.2) && q k.1) = 0
    rw [List.countP_map, List.countP_eq_zero]
    intro w2 hw2 htrue
    simp only [Function.comp, Bool.and_eq_true, beq_iff_eq] at htrue
    exact hbp (Prod.ext htrue.1.1 htrue.1.2)
  rw [sum_map_eq_single pairs _ p hnd hp hz]
  rw [List.countP_map]
  apply List.countP_congr
  intro w2 hw2
  simp [Function.comp]

theorem sum_congr_mem {A : Type} (l : List A) (f g : A → ℕ)
    (h : ∀ a ∈ l, f a = g a) : (l.map f).sum = (l.map g).sum := by
  rw [List.map_congr_left h]

/-- Claim C8: for distinct selected entity pairs whose history carries no
row dated at a horizon week (the history is 2022 data, the horizon January
2023), the forecast output holds exactly one row per (entity pair, horizon
week) combination: its row count is five times the number of pairs, and
each combination — keyed by the pair and the week-of-year label of its
horizon week — occurs exactly once, even for pairs with no seed history. -/
theorem c8_rowcount (model : XRow → ℚ) (em sq : ℚ → ℚ) (dfm : List FeatRow)
    (pairs : List (ℤ × ℤ)) (hnd : pairs.Nodup)
    (hhist : ∀ r ∈ dfm, r.data ∉ semanasJan2023) :
    (generate_predictions model em sq dfm pairs).length = 5 * pairs.length ∧
    (∀ p ∈ pairs, ∀ w ∈ semanasJan2023,
      (generate_predictions model em sq dfm pairs).countP
        (fun s => s.pdv == p.1 && s.produto == p.2 && s.semana == dtWeek w) = 1) := by
  have hout : generate_predictions model em sq dfm pairs =
      ((runLoop model em sq semanasJan2023
        (sortRows ((dfm.filter (fun r => cutoffData < r.data)).map toSRow ++
          mkSkeleton pairs))).2).map
        (fun r => ⟨dtWeek r.data, r.pdv, r.produto, r.quantidade⟩) := rfl
  have hkeys := runLoop_keys model em sq semanasJan2023
      (sortRows ((dfm.filter (fun r => cutoffData < r.data)).map toSRow ++
        mkSkeleton pairs))
  constructor
  · rw [hout, List.length_map]
    rw [show ((runLoop model em sq semanasJan2023
        (sortRows ((dfm.filter (fun r => cutoffData < r.data)).map toSRow ++
          mkSkeleton pairs))).2).length =
        (((runLoop model em sq semanasJan2023
        (sortRows ((dfm.filter (fun r => cutoffData < r.data)).map toSRow ++
          mkSkeleton pairs))).2).map rkey).length from (List.length_map _ _).symm]
    rw [hkeys, List.length_flatMap]
    refine Eq.trans (sum_congr_mem semanasJan2023 _
      (fun _ => pairs.length) ?_) ?_
    · intro w hw
      show (((sortRows ((dfm.filter (fun r => cutoffData < r.data)).map toSRow ++
        mkSkeleton pairs)).map skey).filter (fun k => k.1 == w)).length = _
      rw [← List.countP_eq_length_filter]
      rw [df0_week_count dfm pairs hhist _
        (fun k hk => by rw [beq_iff_eq] at hk; rw [hk]; exact hw)]
      exact skel_week_count pairs w hw
    · simp only [semanasJan2023, List.map_cons, List.map_nil, List.sum_cons,
        List.sum_nil]
      omega
  · intro p hp w hw
    rw [hout, List.countP_map]
    rw [show List.countP ((fun s : SubRow => s.pdv == p.1 && s.produto == p.2 &&
        s.semana == dtWeek w) ∘
        (fun r : ResultRow => ⟨dtWeek r.data, r.pdv, r.produto, r.quantidade⟩))
        ((runLoop model em sq semanasJan2023
          (sortRows ((dfm.filter (fun r => cutoffData < r.data)).map toSRow ++
            mkSkeleton pairs))).2) =
        List.countP ((fun k : ℤ × ℤ × ℤ => k.2.1 == p.1 && k.2.2 == p.2 &&
          dtWeek k.1 == dtWeek w) ∘ rkey)
        ((runLoop model em sq semanasJan2023
          (sortRows ((dfm.filter (fun r => cutoffData < r.data)).map toSRow ++
            mkSkeleton pairs))).2) from rfl]
    rw [← List.countP_map, hkeys, countP_flatMap]
    refine Eq.trans (sum_congr_mem semanasJan2023 _
      (fun w2 => List.countP
        (fun wx => dtWeek wx == dtWeek w && wx == w2) semanasJan2023) ?_) ?_
    · intro w2 hw2
      show ((((sortRows ((dfm.filter (fun r => cutoffData < r.data)).map toSRow ++
          mkSkeleton pairs)).map skey).filter (fun k => k.1 == w2)).countP
        (fun k : ℤ × ℤ × ℤ => k.2.1 == p.1 && k.2.2 == p.2 &&
          dtWeek k.1 == dtWeek w)) = _
      rw [List.countP_filter]
      rw [df0_week_count dfm pairs hhist _
        (fun k hk => by
          have h2 : k.1 = w2 := by
            simp only [Bool.and_eq_true, beq_iff_eq] at hk
            exact hk.2
          rw [h2]; exact hw2)]
      rw [show List.countP
          (fun k : ℤ × ℤ × ℤ => (k.2.1 == p.1 && k.2.2 == p.2 &&
            dtWeek k.1 == dtWeek w) && k.1 == w2)
          ((mkSkeleton pairs).map skey) =
        List.countP
          (fun k : ℤ × ℤ × ℤ => (k.2.1 == p.1 && k.2.2 == p.2) &&
            (dtWeek k.1 == dtWeek w && k.1 == w2))
          ((mkSkeleton pairs).map skey) from
        List.countP_congr (fun k _ => by
          constructor <;> intro h <;>
            (simp only [Bool.and_eq_true] at h ⊢; tauto))]
      exact skel_pair_week_count pairs hnd p hp
        (fun wx => dtWeek wx == dtWeek w && wx == w2)
    · fin_cases hw <;> decide

theorem c8_witness :
    (generate_predictions (fun _ => (0 : ℚ)) id id [] [(1, 1), (2, 2)]).length
      = 5 * 2 ∧
    (∀ p ∈ [((1 : ℤ), (1 : ℤ)), (2, 2)], ∀ w ∈ semanasJan2023,
      (generate_predictions (fun _ => (0 : ℚ)) id id [] [(1, 1), (2, 2)]).countP
        (fun s => s.pdv == p.1 && s.produto == p.2 && s.semana == dtWeek w) = 1) :=
  c8_rowcount (fun _ => 0) id id [] [(1, 1), (2, 2)] (by decide) (by decide)

/-! ### Supporting facts grounding the hypotheses used above: the weekly
truncation anchors every aggregated week start on a Monday, the outlier
correction keeps that alignment, and the aggregation emits at most one row
per (entity pair, week start) key. -/

theorem truncateWeek_aligned (d : ℤ) : truncateWeek d % 7 = 4 := by
  unfold truncateWeek
  omega

theorem aggregateWeekly_aligned (df : List EssRow) :
    ∀ r ∈ aggregateWeekly df, r.data % 7 = 4 := by
  intro r hr
  obtain ⟨k, hk, rfl⟩ := List.mem_map.mp hr
  obtain ⟨e, he, rfl⟩ := List.mem_map.mp (List.mem_dedup.mp hk)
  exact truncateWeek_aligned e.data

theorem clean_and_aggregate_aligned (df : List RawRow) :
    ∀ r ∈ clean_and_aggregate df, r.data % 7 = 4 := by
  intro r hr
  unfold clean_and_aggregate corrigirOutlier at hr
  have hperm := List.perm_insertionSort wLe
    ((aggregateWeekly (selectEssential df)).filter (fun r => r.data != dataPico) ++
      ((aggregateWeekly (selectEssential df)).filter
        (fun r => r.data == dataAnterior)).map (fun r => { r with data := dataPico }))
  rcases List.mem_append.mp (hperm.mem_iff.mp hr) with h | h
  · exact aggregateWeekly_aligned (selectEssential df) r (List.mem_filter.mp h).1
  · obtain ⟨r0, _, rfl⟩ := List.mem_map.mp h
    show dataPico % 7 = 4
    decide

theorem aggregateWeekly_nodup_keys (df : List EssRow) :
    (wkeys (aggregateWeekly df)).Nodup := by
  unfold wkeys aggregateWeekly
  rw [List.map_map]
  have hid : (weekKeys df).map ((fun r : WeeklyRow => (r.data, r.pdv, r.produto)) ∘
      (fun k : ℤ × ℤ × ℤ =>
        let grp := df.filter (fun r => truncateWeek r.data == k.1 &&
          r.pdv == k.2.1 && r.produto == k.2.2)
        (⟨k.1, k.2.1, k.2.2, (grp.map (·.quantidade)).sum,
          (grp.map (·.net_value)).sum⟩ : WeeklyRow))) = weekKeys df :=
    Eq.trans (List.map_congr_left (fun k _ => rfl)) (List.map_id _)
  rw [hid]
  exact List.nodup_dedup _
